import Mathlib

/-!
# Segmented-iteration benchmarks: traversal strategies and data generators

A shallow embedding of `cppcon_src/segmented_bench` (`segmented_bench.cpp`,
`for_each_loop.cpp`, `for_each_algo.cpp`).

* `std::deque<int>` and `std::vector<int>` are lists of `Int`.
* `int` arithmetic is checked: a signed overflow is undefined in C++ and the
  embedding returns `none` for it.
* `unsigned` and `std::size_t` counters are `Nat` with an explicit wrap at
  `2 ^ 32` and `2 ^ 64`.
* Counted loops whose termination depends on the counter width take fuel and
  return `none` when it runs out.
* The random engine is an abstract state `G`; a distribution is a function
  from an engine state to a drawn value and the next engine state.
-/

namespace SegmentedBench

/-! ## Machine integers -/

/-- Number of values of the 32-bit `unsigned` type. -/
def UINT_WIDTH : Nat := 2 ^ 32

/-- Number of values of the 64-bit `std::size_t` type. -/
def SIZE_WIDTH : Nat := 2 ^ 64

/-- Smallest value of a 32-bit `int`. -/
def INT_MIN : Int := -2147483648

/-- Largest value of a 32-bit `int`. -/
def INT_MAX : Int := 2147483647

/-- Whether a mathematical integer is representable as a 32-bit `int`. -/
def inInt (v : Int) : Prop := INT_MIN ≤ v ∧ v ≤ INT_MAX

instance (v : Int) : Decidable (inInt v) := by
  unfold inInt
  exact inferInstance

/-- The statement `r += i` on `int`: the sum when it is representable, `none`
when the addition overflows (undefined behaviour). -/
def int_add (r i : Int) : Option Int :=
  if inInt (r + i) then some (r + i) else none

/-- The call `std::clamp(v, lo, hi)`: `(v < lo) ? lo : (hi < v) ? hi : v`. -/
def clamp (v lo hi : Int) : Int :=
  if v < lo then lo else if hi < v then hi else v

/-! ## Generic traversal algorithms -/

/-- The call `std::ranges::for_each(r, f)` for a callable that updates captured
state `s` from each element by value, in iteration order; the callable may
fault. -/
def ranges_for_each {α σ : Type} (f : α → σ → Option σ) : List α → σ → Option σ
  | [], s => some s
  | a :: rest, s =>
    match f a s with
    | none => none
    | some s2 => ranges_for_each f rest s2

/-- The call `std::ranges::for_each(r, f)` for a callable taking each element by
mutable reference: every element is overwritten by what the callable assigns
to it, front to back. -/
def ranges_for_each_ref {α : Type} (f : α → α) : List α → List α
  | [] => []
  | a :: rest => f a :: ranges_for_each_ref f rest

end SegmentedBench

/-! ## `for_each_loop.cpp` and `for_each_algo.cpp` -/

namespace test

open SegmentedBench

/-- The function `test::for_each_loop(deq, r)`: `for (auto i : deq) r += i;`.
The result is the final value of `r`. -/
def for_each_loop : List Int → Int → Option Int
  | [], r => some r
  | i :: rest, r =>
    match int_add r i with
    | none => none
    | some r2 => for_each_loop rest r2

/-- The function `test::for_each_algo(deq, r)`:
`std::ranges::for_each(deq, [&r](int i) { r += i; });`. -/
def for_each_algo (deq : List Int) (r : Int) : Option Int :=
  ranges_for_each (fun i acc => int_add acc i) deq r

end test

namespace SegmentedBench

/-! ## Summation and clamping benchmarks -/

/-- The range-for of `BM_for_each_loop`, `for (int i : deq) result += i;`, from a
given value of `result`; the outcome is the final value of `result`. -/
def BM_for_each_loop_from : List Int → Int → Option Int
  | [], result => some result
  | i :: rest, result =>
    match int_add result i with
    | none => none
    | some r2 => BM_for_each_loop_from rest r2

/-- Timed body of `BM_for_each_loop`, from `int result = 0`. -/
def BM_for_each_loop (deq : List Int) : Option Int :=
  BM_for_each_loop_from deq 0

/-- Timed body of `BM_for_each_algo`: `int result = 0;
std::ranges::for_each(deq, [&result](int i) { result += i; });`. -/
def BM_for_each_algo (deq : List Int) : Option Int :=
  ranges_for_each (fun i result => int_add result i) deq 0

/-- The range-for of `BM_for_each_loop2`, `for (int& i : deq) i = std::clamp(i, 200, 500);`,
as an iterator walk: `it` is the position of the iterator, `remaining` the
distance to `end()`. The element under the iterator is overwritten in place. -/
def BM_for_each_loop2_from : (remaining : Nat) → (it : Nat) → List Int → List Int
  | 0, _, deq => deq
  | remaining + 1, it, deq =>
    match deq[it]? with
    | none => deq
    | some i => BM_for_each_loop2_from remaining (it + 1) (deq.set it (clamp i 200 500))

/-- Timed body of `BM_for_each_loop2`: one pass from `begin()` to `end()`. -/
def BM_for_each_loop2 (deq : List Int) : List Int :=
  BM_for_each_loop2_from deq.length 0 deq

/-- Timed body of `BM_for_each_algo2`:
`std::ranges::for_each(deq, [](int& i) { i = std::clamp(i, 200, 500); });`. -/
def BM_for_each_algo2 (deq : List Int) : List Int :=
  ranges_for_each_ref (fun i => clamp i 200 500) deq

/-! ## Output iterators and `std::ranges::copy` -/

/-- A destination buffer seen through an output iterator: the buffer, the
position of the iterator, and (ghost state) the indices written so far, oldest
first. -/
structure OutIt where
  /-- Contents of the destination container. -/
  buf : List Int
  /-- Position of the output iterator. -/
  pos : Nat
  /-- Indices that have been stored to, in the order of the stores. -/
  written : List Nat
deriving DecidableEq

/-- The store `*out++ = v`: a store at or past the end of the buffer is out of
bounds and gives `none`. -/
def out_write (o : OutIt) (v : Int) : Option OutIt :=
  if o.pos < o.buf.length then
    some ⟨o.buf.set o.pos v, o.pos + 1, o.written ++ [o.pos]⟩
  else none

/-- The call `std::ranges::copy(r, out)` over a flat range `r`. -/
def ranges_copy : List Int → OutIt → Option OutIt
  | [], o => some o
  | v :: rest, o =>
    match out_write o v with
    | none => none
    | some o2 => ranges_copy rest o2

/-- The call `std::ranges::copy(input | std::views::join, out)`: the joined view
walks the outer range and, inside each inner range, its elements; an empty
inner range contributes nothing. -/
def ranges_copy_join : List (List Int) → OutIt → Option OutIt
  | [], o => some o
  | inner :: rest, o =>
    match ranges_copy inner o with
    | none => none
    | some o2 => ranges_copy_join rest o2

/-! ## Copy benchmarks -/

/-- Timed body of `BM_for_loop`:
`for (auto i = 0uz; i < deq.size(); ++i) vec[i] = deq[i];` with `i` a
`std::size_t`. Both subscripts are checked; an out-of-range one gives `none`,
and so does running out of fuel. -/
def BM_for_loop_from (deq : List Int) : (fuel : Nat) → (i : Nat) → List Int → Option (List Int)
  | 0, _, _ => none
  | fuel + 1, i, vec =>
    if i < deq.length then
      match deq[i]? with
      | none => none
      | some v =>
        if i < vec.length then
          BM_for_loop_from deq fuel ((i + 1) % SIZE_WIDTH) (vec.set i v)
        else none
    else some vec

/-- Timed body of `BM_for_loop`, from `i = 0uz`. -/
def BM_for_loop (fuel : Nat) (deq vec : List Int) : Option (List Int) :=
  BM_for_loop_from deq fuel 0 vec

/-- Timed body of `BM_ranges`: `std::ranges::copy(deq, vec.begin());`. -/
def BM_ranges (deq vec : List Int) : Option OutIt :=
  ranges_copy deq ⟨vec, 0, []⟩

/-! ## Random data generators -/

section Generators

variable {G : Type}

/-- The loop of `create_data`: `for (auto i = 0u; i < size; ++i) res.push_back(dist(rng));`.
The counter `i` is a 32-bit `unsigned`, widened for the comparison with the
`std::size_t` `size` and wrapping at `2 ^ 32` on increment. -/
def create_data_loop (dist : G → Int × G) (size : Nat) :
    (fuel : Nat) → (i : Nat) → (rng : G) → (res : List Int) → Option (List Int)
  | 0, _, _, _ => none
  | fuel + 1, i, rng, res =>
    if i < size then
      create_data_loop dist size fuel ((i + 1) % UINT_WIDTH) (dist rng).2 (res ++ [(dist rng).1])
    else some res

/-- The function `create_data<T>(size)`. `seed` is the state of the local engine
`rng` after `std::mt19937 rng(r())`, and `dist` the action of
`std::uniform_int_distribution<int> dist(0, 1000)` on an engine. -/
def create_data (dist : G → Int × G) (fuel : Nat) (size : Nat) (seed : G) : Option (List Int) :=
  create_data_loop dist size fuel 0 seed []

/-- The loop of `create_random_with_random_length`:
`for (std::size_t i = 0; i < size; ++i) result.push_back(value_dist(gen));`. -/
def create_random_with_random_length_loop (value_dist : G → Int × G) (size : Nat) :
    (fuel : Nat) → (i : Nat) → (gen : G) → (result : List Int) → Option (List Int × G)
  | 0, _, _, _ => none
  | fuel + 1, i, gen, result =>
    if i < size then
      create_random_with_random_length_loop value_dist size fuel ((i + 1) % SIZE_WIDTH)
        (value_dist gen).2 (result ++ [(value_dist gen).1])
    else some (result, gen)

/-- The function `create_random_with_random_length(max_size)`. `gen` is the state
of the function-local `static std::mt19937 gen` on entry, and the second
component of the result its state on return. `size_dist m` is the action of
`std::uniform_int_distribution<std::size_t> size_dist(0, m)` and `value_dist`
that of `std::uniform_int_distribution<int> value_dist(0, 1000)`. -/
def create_random_with_random_length (size_dist : Nat → G → Nat × G) (value_dist : G → Int × G)
    (fuel : Nat) (max_size : Nat) (gen : G) : Option (List Int × G) :=
  create_random_with_random_length_loop value_dist (size_dist max_size gen).1 fuel 0
    (size_dist max_size gen).2 []

/-- The loop of `create_nested`: `for (std::size_t i = 0; i < n_outer; ++i)
nested.push_back(create_random_with_random_length(max_n_inner));`. Every inner
call gets the whole `budget` as its fuel. -/
def create_nested_loop (size_dist : Nat → G → Nat × G) (value_dist : G → Int × G)
    (budget : Nat) (n_outer max_n_inner : Nat) :
    (fuel : Nat) → (i : Nat) → (gen : G) → (nested : List (List Int)) →
      Option (List (List Int) × G)
  | 0, _, _, _ => none
  | fuel + 1, i, gen, nested =>
    if i < n_outer then
      match create_random_with_random_length size_dist value_dist budget max_n_inner gen with
      | none => none
      | some (inner, gen2) =>
        create_nested_loop size_dist value_dist budget n_outer max_n_inner fuel
          ((i + 1) % SIZE_WIDTH) gen2 (nested ++ [inner])
    else some (nested, gen)

/-- The function `create_nested(n_outer, max_n_inner)`, threading the state of the
static engine of `create_random_with_random_length`. -/
def create_nested (size_dist : Nat → G → Nat × G) (value_dist : G → Int × G)
    (budget : Nat) (n_outer max_n_inner : Nat) (gen : G) : Option (List (List Int) × G) :=
  create_nested_loop size_dist value_dist budget n_outer max_n_inner budget 0 gen []

/-- A `std::unordered_map<std::size_t, std::vector<std::vector<int>>>`: the value
stored under each key, if any. -/
abbrev DataMap := Nat → Option (List (List Int))

/-- The assignment `data_map[key] = value`. -/
def map_assign (data_map : DataMap) (key : Nat) (value : List (List Int)) : DataMap :=
  fun k => if k = key then some value else data_map k

/-- The call `data_map.at(key)`; `none` stands for `std::out_of_range`. -/
def map_at (data_map : DataMap) (key : Nat) : Option (List (List Int)) :=
  data_map key

/-- The initialiser of the global `data`: three fixtures, generated one after
the other from the same static engine and stored under 32, 8192 and 65536. -/
def data (size_dist : Nat → G → Nat × G) (value_dist : G → Int × G)
    (budget : Nat) (gen : G) : Option (DataMap × G) :=
  match create_nested size_dist value_dist budget 100 32 gen with
  | none => none
  | some (n1, gen1) =>
    match create_nested size_dist value_dist budget 100 8192 gen1 with
    | none => none
    | some (n2, gen2) =>
      match create_nested size_dist value_dist budget 100 65536 gen2 with
      | none => none
      | some (n3, gen3) =>
        some (map_assign (map_assign (map_assign (fun _ => none) 32 n1) 8192 n2) 65536 n3, gen3)

/-- Contract of `std::uniform_int_distribution<std::size_t>(0, m)`: the drawn
value is at most `m`. -/
def SizeDistContract (size_dist : Nat → G → Nat × G) : Prop :=
  ∀ m gen, (size_dist m gen).1 ≤ m

/-- Contract of `std::uniform_int_distribution<int>(0, 1000)`: the drawn value
lies in the closed range from 0 to 1000. -/
def ValueDistContract (value_dist : G → Int × G) : Prop :=
  ∀ gen, 0 ≤ (value_dist gen).1 ∧ (value_dist gen).1 ≤ 1000

end Generators

/-- A concrete engine for closed examples: the state is a counter, a value draw
returns the counter reduced into the range from 0 to 1000 and advances it. -/
def counter_value_dist (gen : Nat) : Int × Nat :=
  (((gen % 1001 : Nat) : Int), gen + 1)

/-- A concrete size distribution for closed examples: the counter reduced into
the range from 0 to `m`. -/
def counter_size_dist (m : Nat) (gen : Nat) : Nat × Nat :=
  (gen % (m + 1), gen + 1)

/-! ## Dataset acquisition of the benchmarks -/

/-- The function `copy_data(size)`: `std::deque<int> res(size);
std::ranges::copy(random.begin(), random.begin() + size, res.begin());`, with
the global fixture `random` as a parameter. Forming `random.begin() + size` past
the end of `random` is out of bounds and gives `none`. -/
def copy_data (random : List Int) (size : Nat) : Option (List Int) :=
  if size ≤ random.length then
    (ranges_copy (random.take size) ⟨List.replicate size 0, 0, []⟩).map OutIt.buf
  else none

/-- Dataset acquisition of `BM_for_loop`:
`auto deq = create_data<std::deque<int>>(state.range(0));`. Each call seeds a
fresh engine from `std::random_device`; `seed` is that engine. -/
def BM_for_loop_acquire {G : Type} (dist : G → Int × G) (fuel : Nat) (n : Nat) (seed : G) :
    Option (List Int) :=
  create_data dist fuel n seed

/-- Dataset acquisition of `BM_ranges`:
`auto deq = create_data<std::deque<int>>(state.range(0));`. -/
def BM_ranges_acquire {G : Type} (dist : G → Int × G) (fuel : Nat) (n : Nat) (seed : G) :
    Option (List Int) :=
  create_data dist fuel n seed

/-- Dataset acquisition of `BM_join_loop` and `BM_join_view`:
`auto input = data.at(state.range(0));` on the global `data`. -/
def BM_join_acquire (data_map : DataMap) (n : Nat) : Option (List (List Int)) :=
  map_at data_map n

/-! ## Flattening benchmarks -/

/-- The size computation shared by `BM_join_loop` and `BM_join_view`:
`std::accumulate(input.begin(), input.end(), 0uz, [](std::size_t sum, const
std::vector<int> &inner) { return sum + inner.size(); })` in `std::size_t`
arithmetic. -/
def total_size (input : List (List Int)) : Nat :=
  input.foldl (fun sum inner => (sum + inner.length) % SIZE_WIDTH) 0

/-- Inner loop of `BM_join_loop`: `for (int i : inner) result.push_back(i);`. -/
def BM_join_loop_inner : List Int → List Int → List Int
  | [], result => result
  | i :: rest, result => BM_join_loop_inner rest (result ++ [i])

/-- Outer loop of `BM_join_loop`: `for (const auto &inner : input) ...`. -/
def BM_join_loop_outer : List (List Int) → List Int → List Int
  | [], result => result
  | inner :: rest, result => BM_join_loop_outer rest (BM_join_loop_inner inner result)

/-- Timed body of `BM_join_loop`: `std::vector<int> result;
result.reserve(total_size);` followed by the nested loop. Reserving changes the
capacity only, so the contents start empty. -/
def BM_join_loop (input : List (List Int)) : List Int :=
  BM_join_loop_outer input []

/-- Timed body of `BM_join_view`: `std::vector<int> result(total_size);
std::ranges::copy(input | std::views::join, result.begin());`. -/
def BM_join_view (input : List (List Int)) : Option OutIt :=
  ranges_copy_join input ⟨List.replicate (total_size input) 0, 0, []⟩

/-- What `create_nested(k, m)` promises of its result: exactly `k` inner
sequences, each of length at most `m` with every element between 0 and 1000. -/
def IsNestedFixture (k m : Nat) (nested : List (List Int)) : Prop :=
  nested.length = k ∧ ∀ inner ∈ nested, inner.length ≤ m ∧ ∀ x ∈ inner, 0 ≤ x ∧ x ≤ 1000

end SegmentedBench

/-! # Theorems -/

namespace SegmentedBench

/-! ## Summation: loop against generic traversal -/

theorem int_add_of_inInt {r i : Int} (h : inInt (r + i)) : int_add r i = some (r + i) := by
  simp [int_add, h]

theorem for_each_loop_eq_ranges (deq : List Int) (r : Int) :
    test.for_each_loop deq r = ranges_for_each (fun i acc => int_add acc i) deq r := by
  induction deq generalizing r with
  | nil => rfl
  | cons i rest ih =>
    simp only [test.for_each_loop, ranges_for_each]
    cases int_add r i with
    | none => rfl
    | some r2 => exact ih r2

theorem BM_for_each_loop_from_eq_test (deq : List Int) (r : Int) :
    BM_for_each_loop_from deq r = test.for_each_loop deq r := by
  induction deq generalizing r with
  | nil => rfl
  | cons i rest ih =>
    simp only [BM_for_each_loop_from, test.for_each_loop]
    cases int_add r i with
    | none => rfl
    | some r2 => exact ih r2

/-- When no partial sum leaves the `int` range, the loop returns the exact sum. -/
theorem for_each_loop_exact (deq : List Int) (r : Int)
    (h : ∀ k, k ≤ deq.length → inInt (r + (deq.take k).sum)) :
    test.for_each_loop deq r = some (r + deq.sum) := by
  induction deq generalizing r with
  | nil => simp [test.for_each_loop]
  | cons i rest ih =>
    have h1 : inInt (r + i) := by
      have := h 1 (by simp)
      simpa using this
    have h2 : ∀ k, k ≤ rest.length → inInt (r + i + (rest.take k).sum) := by
      intro k hk
      have := h (k + 1) (by simpa using hk)
      simpa [add_assoc] using this
    simp only [test.for_each_loop, int_add_of_inInt h1]
    rw [ih (r + i) h2]
    simp [add_assoc]

/-- Splitting a run of the summation loop after `k` additions. -/
theorem for_each_loop_split (deq : List Int) (k : Nat) (r : Int) :
    test.for_each_loop deq r =
      (test.for_each_loop (deq.take k) r).bind (test.for_each_loop (deq.drop k)) := by
  induction deq generalizing k r with
  | nil => simp [test.for_each_loop]
  | cons i rest ih =>
    cases k with
    | zero => simp [test.for_each_loop]
    | succ k =>
      simp only [List.take_succ_cons, List.drop_succ_cons, test.for_each_loop]
      cases int_add r i with
      | none => rfl
      | some r2 => exact ih k r2

theorem sum_bounds (l : List Int) (h : ∀ x ∈ l, 0 ≤ x ∧ x ≤ 1000) :
    0 ≤ l.sum ∧ l.sum ≤ 1000 * (l.length : Int) := by
  induction l with
  | nil => simp
  | cons a rest ih =>
    have ha := h a (by simp)
    have hr := ih (fun x hx => h x (by simp [hx]))
    simp only [List.sum_cons, List.length_cons, Nat.cast_add, Nat.cast_one]
    omega

/-! ## Clamping: loop against generic traversal -/

theorem clamp_eq_max_min (x : Int) : clamp x 200 500 = max 200 (min x 500) := by
  unfold clamp
  split_ifs <;> omega

theorem clamp_bounds (x : Int) : 200 ≤ clamp x 200 500 ∧ clamp x 200 500 ≤ 500 := by
  unfold clamp
  split_ifs <;> omega

theorem ranges_for_each_ref_eq_map {α : Type} (f : α → α) (l : List α) :
    ranges_for_each_ref f l = l.map f := by
  induction l with
  | nil => rfl
  | cons a rest ih => simp [ranges_for_each_ref, ih]

theorem BM_for_each_loop2_from_append (done todo : List Int) :
    BM_for_each_loop2_from todo.length done.length (done ++ todo) =
      done ++ todo.map (fun i => clamp i 200 500) := by
  induction todo generalizing done with
  | nil => simp [BM_for_each_loop2_from]
  | cons i rest ih =>
    have hget : (done ++ i :: rest)[done.length]? = some i := by
      rw [List.getElem?_append_right (le_refl _)]
      simp
    have hset : (done ++ i :: rest).set done.length (clamp i 200 500) =
        (done ++ [clamp i 200 500]) ++ rest := by
      simp
    simp only [List.length_cons, BM_for_each_loop2_from, hget, hset]
    have := ih (done ++ [clamp i 200 500])
    simp only [List.length_append, List.length_singleton] at this
    rw [this]
    simp

theorem BM_for_each_loop2_eq_map (deq : List Int) :
    BM_for_each_loop2 deq = deq.map (fun i => clamp i 200 500) := by
  have := BM_for_each_loop2_from_append [] deq
  simpa [BM_for_each_loop2] using this

theorem ranges_for_each_split {α σ : Type} (f : α → σ → Option σ) (l : List α) (k : Nat)
    (s : σ) :
    ranges_for_each f l s = (ranges_for_each f (l.take k) s).bind (ranges_for_each f (l.drop k)) := by
  induction l generalizing k s with
  | nil => simp [ranges_for_each]
  | cons a rest ih =>
    cases k with
    | zero => simp [ranges_for_each]
    | succ k =>
      simp only [List.take_succ_cons, List.drop_succ_cons, ranges_for_each]
      cases f a s with
      | none => rfl
      | some s2 => exact ih k s2

/-- A sequence of at most 65536 values between 0 and 1000 is summed exactly by
the checked loop started at 0, and the sum is at most 65536000. -/
theorem bounded_run_exact (l : List Int) (hlen : l.length ≤ 65536)
    (hval : ∀ x ∈ l, 0 ≤ x ∧ x ≤ 1000) :
    test.for_each_loop l 0 = some l.sum ∧ 0 ≤ l.sum ∧ l.sum ≤ 65536000 := by
  have hb := sum_bounds l hval
  have hcast : (l.length : Int) ≤ 65536 := by exact_mod_cast hlen
  refine ⟨?_, hb.1, by omega⟩
  have h := for_each_loop_exact l 0 (by
    intro k _
    have hk := sum_bounds (l.take k) (fun x hx => hval x (List.mem_of_mem_take hx))
    have hlk : ((l.take k).length : Int) ≤ 65536 := by
      have : (l.take k).length ≤ l.length := by simp
      exact_mod_cast le_trans this hlen
    simp only [inInt, INT_MIN, INT_MAX]
    omega)
  simpa using h

/-! ## Copying through an output iterator -/

/-- A flat copy of `l` into a buffer with at least `l.length` free slots after
the iterator fills the next `l.length` slots in order and logs their indices. -/
theorem ranges_copy_spec (l done slots : List Int) (w : List Nat)
    (h : l.length ≤ slots.length) :
    ranges_copy l ⟨done ++ slots, done.length, w⟩ =
      some ⟨done ++ l ++ slots.drop l.length, done.length + l.length,
        w ++ List.range' done.length l.length⟩ := by
  induction l generalizing done slots w with
  | nil => simp [ranges_copy]
  | cons v rest ih =>
    cases slots with
    | nil => simp at h
    | cons s slots2 =>
      have hlt : done.length < (done ++ s :: slots2).length := by simp
      have hset : (done ++ s :: slots2).set done.length v = (done ++ [v]) ++ slots2 := by simp
      have hrest : rest.length ≤ slots2.length := by simpa using h
      have hw : out_write ⟨done ++ s :: slots2, done.length, w⟩ v =
          some ⟨(done ++ [v]) ++ slots2, (done ++ [v]).length, w ++ [done.length]⟩ := by
        simp [out_write]
      simp only [ranges_copy, hw]
      rw [ih (done ++ [v]) slots2 (w ++ [done.length]) hrest]
      simp [List.range'_succ, Nat.add_assoc, Nat.add_comm 1]

/-- A flat copy of `l` into a buffer with fewer than `l.length` free slots after
the iterator stores out of bounds. -/
theorem ranges_copy_overrun (l done slots : List Int) (w : List Nat)
    (h : slots.length < l.length) :
    ranges_copy l ⟨done ++ slots, done.length, w⟩ = none := by
  induction l generalizing done slots w with
  | nil => simp at h
  | cons v rest ih =>
    cases slots with
    | nil => simp [ranges_copy, out_write]
    | cons s slots2 =>
      have hlt : done.length < (done ++ s :: slots2).length := by simp
      have hset : (done ++ s :: slots2).set done.length v = (done ++ [v]) ++ slots2 := by simp
      have hrest : slots2.length < rest.length := by simpa using h
      have hw : out_write ⟨done ++ s :: slots2, done.length, w⟩ v =
          some ⟨(done ++ [v]) ++ slots2, (done ++ [v]).length, w ++ [done.length]⟩ := by
        simp [out_write]
      simp only [ranges_copy, hw]
      exact ih (done ++ [v]) slots2 (w ++ [done.length]) hrest

/-- Copying the joined view of `input` fills the next `input.flatten.length`
slots with the concatenation of the inner ranges. -/
theorem ranges_copy_join_spec (input : List (List Int)) (done slots : List Int) (w : List Nat)
    (h : input.flatten.length ≤ slots.length) :
    ranges_copy_join input ⟨done ++ slots, done.length, w⟩ =
      some ⟨done ++ input.flatten ++ slots.drop input.flatten.length,
        done.length + input.flatten.length,
        w ++ List.range' done.length input.flatten.length⟩ := by
  induction input generalizing done slots w with
  | nil => simp [ranges_copy_join]
  | cons inner rest ih =>
    have hlen : inner.length + rest.flatten.length ≤ slots.length := by
      simpa [List.flatten] using h
    have h1 : inner.length ≤ slots.length := by omega
    have h2 : rest.flatten.length ≤ (slots.drop inner.length).length := by
      simp only [List.length_drop]
      omega
    simp only [ranges_copy_join, ranges_copy_spec inner done slots w h1]
    have := ih (done ++ inner) (slots.drop inner.length)
      (w ++ List.range' done.length inner.length) h2
    simp only [List.length_append] at this
    rw [this]
    simp only [List.flatten, List.length_append, List.drop_drop, List.append_assoc,
      Option.some.injEq, OutIt.mk.injEq, List.append_cancel_left_eq]
    refine ⟨trivial, by omega, ?_⟩
    rw [List.range'_append_1, Nat.add_comm]

/-! ## Flattening -/

theorem total_size_from (input : List (List Int)) (acc : Nat)
    (h : acc + input.flatten.length < SIZE_WIDTH) :
    input.foldl (fun sum inner => (sum + inner.length) % SIZE_WIDTH) acc =
      acc + input.flatten.length := by
  induction input generalizing acc with
  | nil => simp
  | cons inner rest ih =>
    have hlen : acc + (inner.length + rest.flatten.length) < SIZE_WIDTH := by
      simpa [List.flatten] using h
    have hmod : (acc + inner.length) % SIZE_WIDTH = acc + inner.length :=
      Nat.mod_eq_of_lt (by omega)
    simp only [List.foldl_cons, hmod]
    rw [ih (acc + inner.length) (by omega)]
    simp [List.flatten, Nat.add_assoc]

theorem total_size_eq (input : List (List Int)) (h : input.flatten.length < SIZE_WIDTH) :
    total_size input = input.flatten.length := by
  have := total_size_from input 0 (by simpa using h)
  simpa [total_size] using this

theorem BM_join_loop_inner_eq (inner result : List Int) :
    BM_join_loop_inner inner result = result ++ inner := by
  induction inner generalizing result with
  | nil => simp [BM_join_loop_inner]
  | cons i rest ih => simp [BM_join_loop_inner, ih]

theorem BM_join_loop_outer_eq (input : List (List Int)) (result : List Int) :
    BM_join_loop_outer input result = result ++ input.flatten := by
  induction input generalizing result with
  | nil => simp [BM_join_loop_outer]
  | cons inner rest ih => simp [BM_join_loop_outer, ih, BM_join_loop_inner_eq, List.flatten]

theorem BM_join_loop_eq (input : List (List Int)) : BM_join_loop input = input.flatten := by
  simp [BM_join_loop, BM_join_loop_outer_eq]

/-- Copying the joined view into any buffer of exactly `input.flatten.length`
slots overwrites the whole buffer with the concatenation, storing once to each
index in increasing order. -/
theorem ranges_copy_join_full (input : List (List Int)) (init : List Int)
    (h : init.length = input.flatten.length) :
    ranges_copy_join input ⟨init, 0, []⟩ =
      some ⟨input.flatten, input.flatten.length, List.range input.flatten.length⟩ := by
  have := ranges_copy_join_spec input [] init [] (by omega)
  simp only [List.nil_append, List.length_nil, Nat.zero_add] at this
  rw [this, ← h, List.drop_length, List.append_nil, List.range_eq_range']

/-! ## Indexed copy -/

theorem BM_for_loop_from_spec (deq : List Int) (hsz : deq.length < SIZE_WIDTH)
    (todo done slots : List Int) (fuel : Nat)
    (hdeq : deq = done ++ todo) (hslots : slots.length = todo.length)
    (hfuel : todo.length < fuel) :
    BM_for_loop_from deq fuel done.length (done ++ slots) = some deq := by
  induction todo generalizing done slots fuel with
  | nil =>
    cases fuel with
    | zero => simp at hfuel
    | succ fuel =>
      have hs : slots = [] := List.length_eq_zero.mp (by simpa using hslots)
      subst hs
      simp [BM_for_loop_from, hdeq]
  | cons x rest ih =>
    cases fuel with
    | zero => simp at hfuel
    | succ fuel =>
      cases slots with
      | nil => simp at hslots
      | cons s slots2 =>
        have hi : done.length < deq.length := by simp [hdeq]
        have hget : deq[done.length]? = some x := by
          rw [hdeq, List.getElem?_append_right (le_refl _)]
          simp
        have hv : done.length < (done ++ s :: slots2).length := by simp
        have hset : (done ++ s :: slots2).set done.length x = (done ++ [x]) ++ slots2 := by simp
        have hmod : (done.length + 1) % SIZE_WIDTH = (done ++ [x]).length := by
          rw [Nat.mod_eq_of_lt (by omega)]
          simp
        simp only [BM_for_loop_from, hi, if_true, hget, hv, hset, hmod]
        exact ih (done ++ [x]) slots2 fuel (by simp [hdeq]) (by simpa using hslots)
          (by simpa using hfuel)

/-! ## Generators -/

section GeneratorLemmas

variable {G : Type}

/-- Once the requested size reaches `2 ^ 32` the 32-bit counter of `create_data`
stays below it for ever: the loop does not exit, whatever the fuel. -/
theorem create_data_loop_diverges (dist : G → Int × G) (size : Nat) (hsize : UINT_WIDTH ≤ size)
    (fuel i : Nat) (rng : G) (res : List Int) (hi : i < UINT_WIDTH) :
    create_data_loop dist size fuel i rng res = none := by
  induction fuel generalizing i rng res with
  | zero => rfl
  | succ fuel ih =>
    have hlt : i < size := lt_of_lt_of_le hi hsize
    simp only [create_data_loop, hlt, if_true]
    exact ih _ _ _ (Nat.mod_lt _ (by decide))

/-- Below `2 ^ 32` the loop of `create_data` exits after appending `size - i`
draws, each within the contract of the distribution. -/
theorem create_data_loop_spec (dist : G → Int × G) (hd : ValueDistContract dist) (size : Nat)
    (hsize : size < UINT_WIDTH) (fuel i : Nat) (rng : G) (res : List Int)
    (hi : i ≤ size) (hfuel : size - i < fuel) :
    ∃ out, create_data_loop dist size fuel i rng res = some out ∧
      out.length = res.length + (size - i) ∧
      ∀ x ∈ out, x ∈ res ∨ (0 ≤ x ∧ x ≤ 1000) := by
  induction fuel generalizing i rng res with
  | zero => omega
  | succ fuel ih =>
    by_cases hlt : i < size
    · have hmod : (i + 1) % UINT_WIDTH = i + 1 := Nat.mod_eq_of_lt (by omega)
      simp only [create_data_loop, hlt, if_true, hmod]
      obtain ⟨out, hout, hlen, hmem⟩ :=
        ih (i + 1) (dist rng).2 (res ++ [(dist rng).1]) (by omega) (by omega)
      refine ⟨out, hout, ?_, ?_⟩
      · rw [hlen, List.length_append, List.length_singleton]
        omega
      · intro x hx
        rcases hmem x hx with h | h
        · rcases List.mem_append.mp h with h1 | h1
          · exact Or.inl h1
          · rw [List.mem_singleton] at h1
            exact Or.inr (h1 ▸ hd rng)
        · exact Or.inr h
    · have : size - i = 0 := by omega
      simp only [create_data_loop, hlt, if_false]
      exact ⟨res, rfl, by omega, fun x hx => Or.inl hx⟩

/-- For a requested size below `2 ^ 32` and more fuel than that, `create_data`
returns exactly `size` values between 0 and 1000. -/
theorem create_data_spec (dist : G → Int × G) (hd : ValueDistContract dist) (size : Nat)
    (hsize : size < UINT_WIDTH) (fuel : Nat) (hfuel : size < fuel) (seed : G) :
    ∃ out, create_data dist fuel size seed = some out ∧ out.length = size ∧
      ∀ x ∈ out, 0 ≤ x ∧ x ≤ 1000 := by
  obtain ⟨out, hout, hlen, hmem⟩ :=
    create_data_loop_spec dist hd size hsize fuel 0 seed [] (Nat.zero_le _) (by omega)
  refine ⟨out, hout, by simpa using hlen, ?_⟩
  intro x hx
  rcases hmem x hx with h | h
  · simp at h
  · exact h

theorem create_random_with_random_length_loop_spec (value_dist : G → Int × G)
    (hv : ValueDistContract value_dist) (size : Nat) (hsize : size < SIZE_WIDTH)
    (fuel i : Nat) (gen : G) (result : List Int) (hi : i ≤ size) (hfuel : size - i < fuel) :
    ∃ out gen2, create_random_with_random_length_loop value_dist size fuel i gen result =
        some (out, gen2) ∧
      out.length = result.length + (size - i) ∧
      ∀ x ∈ out, x ∈ result ∨ (0 ≤ x ∧ x ≤ 1000) := by
  induction fuel generalizing i gen result with
  | zero => omega
  | succ fuel ih =>
    by_cases hlt : i < size
    · have hmod : (i + 1) % SIZE_WIDTH = i + 1 := Nat.mod_eq_of_lt (by omega)
      simp only [create_random_with_random_length_loop, hlt, if_true, hmod]
      obtain ⟨out, gen2, hout, hlen, hmem⟩ :=
        ih (i + 1) (value_dist gen).2 (result ++ [(value_dist gen).1]) (by omega) (by omega)
      refine ⟨out, gen2, hout, ?_, ?_⟩
      · rw [hlen, List.length_append, List.length_singleton]
        omega
      · intro x hx
        rcases hmem x hx with h | h
        · rcases List.mem_append.mp h with h1 | h1
          · exact Or.inl h1
          · rw [List.mem_singleton] at h1
            exact Or.inr (h1 ▸ hv gen)
        · exact Or.inr h
    · have : size - i = 0 := by omega
      simp only [create_random_with_random_length_loop, hlt, if_false]
      exact ⟨result, gen, rfl, by omega, fun x hx => Or.inl hx⟩

theorem create_random_with_random_length_spec (size_dist : Nat → G → Nat × G)
    (value_dist : G → Int × G) (hs : SizeDistContract size_dist)
    (hv : ValueDistContract value_dist) (max_size : Nat) (hmax : max_size < SIZE_WIDTH)
    (fuel : Nat) (hfuel : max_size < fuel) (gen : G) :
    ∃ result gen2,
      create_random_with_random_length size_dist value_dist fuel max_size gen =
        some (result, gen2) ∧
      result.length = (size_dist max_size gen).1 ∧ result.length ≤ max_size ∧
      ∀ x ∈ result, 0 ≤ x ∧ x ≤ 1000 := by
  have hdraw := hs max_size gen
  obtain ⟨out, gen2, hout, hlen, hmem⟩ :=
    create_random_with_random_length_loop_spec value_dist hv (size_dist max_size gen).1
      (by omega) fuel 0 (size_dist max_size gen).2 [] (Nat.zero_le _) (by omega)
  have hlen2 : out.length = (size_dist max_size gen).1 := by simpa using hlen
  refine ⟨out, gen2, hout, hlen2, by omega, ?_⟩
  intro x hx
  rcases hmem x hx with h | h
  · simp at h
  · exact h

theorem create_nested_loop_spec (size_dist : Nat → G → Nat × G) (value_dist : G → Int × G)
    (hs : SizeDistContract size_dist) (hv : ValueDistContract value_dist)
    (budget n_outer max_n_inner : Nat) (hk : n_outer < SIZE_WIDTH)
    (hm : max_n_inner < SIZE_WIDTH) (hbm : max_n_inner < budget)
    (fuel i : Nat) (gen : G) (nested : List (List Int))
    (hi : i ≤ n_outer) (hfuel : n_outer - i < fuel) :
    ∃ out gen2,
      create_nested_loop size_dist value_dist budget n_outer max_n_inner fuel i gen nested =
        some (out, gen2) ∧
      out.length = nested.length + (n_outer - i) ∧
      ∀ inner ∈ out, inner ∈ nested ∨
        (inner.length ≤ max_n_inner ∧ ∀ x ∈ inner, 0 ≤ x ∧ x ≤ 1000) := by
  induction fuel generalizing i gen nested with
  | zero => omega
  | succ fuel ih =>
    by_cases hlt : i < n_outer
    · have hmod : (i + 1) % SIZE_WIDTH = i + 1 := Nat.mod_eq_of_lt (by omega)
      obtain ⟨inner, gen1, hinner, _, hle, hval⟩ :=
        create_random_with_random_length_spec size_dist value_dist hs hv max_n_inner hm
          budget hbm gen
      simp only [create_nested_loop, hlt, if_true, hmod, hinner]
      obtain ⟨out, gen2, hout, hlen, hmem⟩ :=
        ih (i + 1) gen1 (nested ++ [inner]) (by omega) (by omega)
      refine ⟨out, gen2, hout, ?_, ?_⟩
      · rw [hlen, List.length_append, List.length_singleton]
        omega
      · intro y hy
        rcases hmem y hy with h | h
        · rcases List.mem_append.mp h with h1 | h1
          · exact Or.inl h1
          · rw [List.mem_singleton] at h1
            exact Or.inr (h1 ▸ ⟨hle, hval⟩)
        · exact Or.inr h
    · have : n_outer - i = 0 := by omega
      simp only [create_nested_loop, hlt, if_false]
      exact ⟨nested, gen, rfl, by omega, fun y hy => Or.inl hy⟩

theorem create_nested_spec (size_dist : Nat → G → Nat × G) (value_dist : G → Int × G)
    (hs : SizeDistContract size_dist) (hv : ValueDistContract value_dist)
    (budget n_outer max_n_inner : Nat) (hk : n_outer < SIZE_WIDTH)
    (hm : max_n_inner < SIZE_WIDTH) (hbk : n_outer < budget) (hbm : max_n_inner < budget)
    (gen : G) :
    ∃ nested gen2,
      create_nested size_dist value_dist budget n_outer max_n_inner gen = some (nested, gen2) ∧
      IsNestedFixture n_outer max_n_inner nested := by
  obtain ⟨out, gen2, hout, hlen, hmem⟩ :=
    create_nested_loop_spec size_dist value_dist hs hv budget n_outer max_n_inner hk hm hbm
      budget 0 gen [] (Nat.zero_le _) (by omega)
  refine ⟨out, gen2, hout, by simpa using hlen, ?_⟩
  intro inner hinner
  rcases hmem inner hinner with h | h
  · simp at h
  · exact h

end GeneratorLemmas

theorem counter_size_dist_contract : SizeDistContract counter_size_dist := by
  intro m gen
  simp only [counter_size_dist]
  exact Nat.lt_succ_iff.mp (Nat.mod_lt _ (Nat.succ_pos m))

theorem counter_value_dist_contract : ValueDistContract counter_value_dist := by
  intro gen
  simp only [counter_value_dist]
  omega

/-- The function `copy_data` returns the first `size` values of the fixture. -/
theorem copy_data_eq_take (random : List Int) (size : Nat) (h : size ≤ random.length) :
    copy_data random size = some (random.take size) := by
  have := ranges_copy_spec (random.take size) [] (List.replicate size 0) [] (by simp)
  simp only [List.nil_append, List.length_nil] at this
  simp only [copy_data, h, if_true, this]
  simp [Nat.min_eq_left h]

/-- A dataset that `copy_data` takes from a fixture of 65536 values between 0 and
1000 has at most 65536 elements, all between 0 and 1000. -/
theorem copy_data_fixture_bounds (random : List Int) (hlen : random.length = 65536)
    (hval : ∀ x ∈ random, 0 ≤ x ∧ x ≤ 1000) (size : Nat) (hsize : size ≤ 65536) :
    ∃ deq, copy_data random size = some deq ∧ deq.length = size ∧ deq.length ≤ 65536 ∧
      ∀ x ∈ deq, 0 ≤ x ∧ x ≤ 1000 := by
  refine ⟨random.take size, copy_data_eq_take random size (by omega), ?_, ?_, ?_⟩
  · simp [hlen, hsize]
  · simp [hlen, hsize]
  · exact fun x hx => hval x (List.mem_of_mem_take hx)

/-! ## Claims on summation and clamping -/

/-- C2 (counterexample): with `r` at the largest `int` and the one-element
sequence `[1]`, the addition `r += 1` overflows, so neither `for_each_loop` nor
`for_each_algo` leaves `r` at `r0` plus the sum of the elements, although `r0`
and the element are both valid `int` values. -/
theorem for_each_sum_overflow_counterexample :
    inInt 2147483647 ∧ inInt 1 ∧
    test.for_each_loop [1] 2147483647 ≠ some (2147483647 + List.sum [1]) ∧
    test.for_each_algo [1] 2147483647 ≠ some (2147483647 + List.sum [1]) := by
  decide

/-- C2 (amended): `test::for_each_loop` and `test::for_each_algo` always agree, and
so do the timed bodies of `BM_for_each_loop` and `BM_for_each_algo`; whenever the
initial value and every partial sum `r0 + deq[0] + ... + deq[k-1]` are
representable as `int`, both leave `r` at `r0` plus the sum of the elements (and
the timed bodies, which start from 0, at the sum of the elements). -/
theorem for_each_loop_algo_agree (deq : List Int) (r0 : Int) :
    test.for_each_loop deq r0 = test.for_each_algo deq r0 ∧
    BM_for_each_loop deq = BM_for_each_algo deq ∧
    ((∀ k, k ≤ deq.length → inInt (r0 + (deq.take k).sum)) →
      test.for_each_loop deq r0 = some (r0 + deq.sum) ∧
      test.for_each_algo deq r0 = some (r0 + deq.sum)) ∧
    ((∀ k, k ≤ deq.length → inInt ((deq.take k).sum)) →
      BM_for_each_loop deq = some deq.sum ∧
      BM_for_each_algo deq = some deq.sum) := by
  have hagree : ∀ r, test.for_each_loop deq r = test.for_each_algo deq r :=
    fun r => for_each_loop_eq_ranges deq r
  have hbody : BM_for_each_loop deq = BM_for_each_algo deq := by
    unfold BM_for_each_loop BM_for_each_algo
    rw [BM_for_each_loop_from_eq_test]
    exact for_each_loop_eq_ranges deq 0
  refine ⟨hagree r0, hbody, ?_, ?_⟩
  · intro h
    have := for_each_loop_exact deq r0 h
    exact ⟨this, (hagree r0) ▸ this⟩
  · intro h
    have h0 : test.for_each_loop deq 0 = some (0 + deq.sum) :=
      for_each_loop_exact deq 0 (by simpa using h)
    have hl : BM_for_each_loop deq = some deq.sum := by
      unfold BM_for_each_loop
      rw [BM_for_each_loop_from_eq_test]
      simpa using h0
    exact ⟨hl, hbody ▸ hl⟩

/-- C2 (witness): `[1, 2, 3, 4]` from 0 keeps every partial sum in range and sums
to 10 under both strategies. -/
theorem for_each_loop_algo_agree_witness :
    (∀ k, k ≤ [1, 2, 3, 4].length → inInt (0 + (([1, 2, 3, 4] : List Int).take k).sum)) ∧
    test.for_each_loop [1, 2, 3, 4] 0 = some 10 ∧
    test.for_each_algo [1, 2, 3, 4] 0 = some 10 :=
  have h : ∀ k, k ≤ [1, 2, 3, 4].length → inInt (0 + (([1, 2, 3, 4] : List Int).take k).sum) := by
    intro k hk
    simp only [List.length_cons, List.length_nil] at hk
    interval_cases k <;> decide
  ⟨h, (for_each_loop_algo_agree [1, 2, 3, 4] 0).2.2.1 h⟩

/-- C3: one pass of the clamp loop of `BM_for_each_loop2` and one pass of the
`ranges::for_each` of `BM_for_each_algo2` replace `deq` by the same sequence; it
has the length of the original, its `i`-th element is
`clamp(original[i], 200, 500) = max(200, min(original[i], 500))`, every element
lies between 200 and 500, and `[50, 300, 999]` becomes `[200, 300, 500]`. -/
theorem clamp_loop_algo (deq : List Int) :
    BM_for_each_loop2 deq = BM_for_each_algo2 deq ∧
    (BM_for_each_loop2 deq).length = deq.length ∧
    (∀ i : Nat, (BM_for_each_loop2 deq)[i]? = (deq[i]?).map (fun x => clamp x 200 500)) ∧
    (∀ x, clamp x 200 500 = max 200 (min x 500)) ∧
    (∀ x ∈ BM_for_each_loop2 deq, 200 ≤ x ∧ x ≤ 500) ∧
    BM_for_each_loop2 [50, 300, 999] = [200, 300, 500] ∧
    BM_for_each_algo2 [50, 300, 999] = [200, 300, 500] := by
  have hloop := BM_for_each_loop2_eq_map deq
  refine ⟨?_, ?_, ?_, clamp_eq_max_min, ?_, by decide, by decide⟩
  · rw [hloop, BM_for_each_algo2, ranges_for_each_ref_eq_map]
  · rw [hloop, List.length_map]
  · intro i
    rw [hloop, List.getElem?_map]
  · intro x hx
    rw [hloop, List.mem_map] at hx
    obtain ⟨y, _, rfl⟩ := hx
    exact clamp_bounds y

/-- C10: for a sequence of at most 65536 elements, each between 0 and 1000, the
accumulator `result` of the summation loops of `BM_for_each_loop` and
`BM_for_each_algo`, started at 0, holds after `k` additions the exact sum of the
first `k` elements, which lies between 0 and 65536000 and hence below the
largest `int`; no addition overflows and the final value is the exact sum. -/
theorem for_each_sum_no_overflow (deq : List Int) (hlen : deq.length ≤ 65536)
    (hval : ∀ x ∈ deq, 0 ≤ x ∧ x ≤ 1000) (k : Nat) :
    BM_for_each_loop_from (deq.take k) 0 = some (deq.take k).sum ∧
    ranges_for_each (fun i result => int_add result i) (deq.take k) 0 = some (deq.take k).sum ∧
    0 ≤ (deq.take k).sum ∧ (deq.take k).sum ≤ 65536000 ∧ (deq.take k).sum ≤ INT_MAX ∧
    BM_for_each_loop deq =
      (BM_for_each_loop_from (deq.take k) 0).bind (BM_for_each_loop_from (deq.drop k)) ∧
    BM_for_each_algo deq =
      (ranges_for_each (fun i result => int_add result i) (deq.take k) 0).bind
        (ranges_for_each (fun i result => int_add result i) (deq.drop k)) ∧
    BM_for_each_loop deq = some deq.sum ∧
    BM_for_each_algo deq = some deq.sum := by
  have htake := bounded_run_exact (deq.take k)
    (le_trans (by simp) hlen) (fun x hx => hval x (List.mem_of_mem_take hx))
  have hall := bounded_run_exact deq hlen hval
  have hsplit : BM_for_each_loop deq =
      (BM_for_each_loop_from (deq.take k) 0).bind (BM_for_each_loop_from (deq.drop k)) := by
    unfold BM_for_each_loop
    rw [BM_for_each_loop_from_eq_test, BM_for_each_loop_from_eq_test, for_each_loop_split deq k 0]
    congr 1
    funext r
    rw [BM_for_each_loop_from_eq_test]
  refine ⟨?_, ?_, htake.2.1, htake.2.2, ?_, hsplit, ?_, ?_, ?_⟩
  · rw [BM_for_each_loop_from_eq_test]
    exact htake.1
  · rw [← for_each_loop_eq_ranges]
    exact htake.1
  · have := htake.2.2
    simp only [INT_MAX]
    omega
  · exact ranges_for_each_split _ deq k 0
  · unfold BM_for_each_loop
    rw [BM_for_each_loop_from_eq_test]
    exact hall.1
  · unfold BM_for_each_algo
    rw [← for_each_loop_eq_ranges]
    exact hall.1

/-- C10 (witness): the bounds hold for `[1000, 0, 1000]`, whose first two
elements sum to 1000 and whose total is 2000. -/
theorem for_each_sum_no_overflow_witness :
    BM_for_each_loop_from (([1000, 0, 1000] : List Int).take 2) 0 = some 1000 ∧
    BM_for_each_loop [1000, 0, 1000] = some 2000 ∧
    BM_for_each_algo [1000, 0, 1000] = some 2000 :=
  have h := for_each_sum_no_overflow [1000, 0, 1000] (by decide) (by decide) 2
  ⟨h.1, h.2.2.2.2.2.2.2.1, h.2.2.2.2.2.2.2.2⟩

/-! ## Claims on flattening and copying -/

/-- C1: for every nested sequence (representable in memory, so with fewer than
`2 ^ 64` elements in total) the nested `push_back` loop of `BM_join_loop` and the
copy of `input | views::join` into a buffer pre-sized to `total_size` in
`BM_join_view` build the same sequence, the concatenation of the inner
sequences in their original order. -/
theorem join_loop_view_flatten (input : List (List Int))
    (h : input.flatten.length < SIZE_WIDTH) :
    BM_join_loop input = input.flatten ∧
    (BM_join_view input).map OutIt.buf = some input.flatten ∧
    (BM_join_view input).map OutIt.buf = some (BM_join_loop input) := by
  have hv : BM_join_view input =
      some ⟨input.flatten, input.flatten.length, List.range input.flatten.length⟩ := by
    unfold BM_join_view
    exact ranges_copy_join_full input _ (by simp [total_size_eq input h])
  refine ⟨BM_join_loop_eq input, ?_, ?_⟩
  · rw [hv]
    rfl
  · rw [hv, BM_join_loop_eq]
    rfl

/-- C1 (witness): `[[1,2],[],[3]]` gives `[1,2,3]` under both strategies. -/
theorem join_loop_view_flatten_witness :
    BM_join_loop [[1, 2], [], [3]] = [1, 2, 3] ∧
    (BM_join_view [[1, 2], [], [3]]).map OutIt.buf = some [1, 2, 3] :=
  have h := join_loop_view_flatten [[1, 2], [], [3]] (by decide)
  ⟨h.1, h.2.1⟩

/-- C9: `total_size`, accumulated over the inner sizes from 0, is the number of
elements of the flattened input; the copy in `BM_join_view` succeeds with no
out-of-bounds store, stores to the indices `0 .. total_size - 1` in order, each
exactly once and to no other index, ends with the iterator at `total_size`, and
its result does not depend on the initial contents of the buffer, so none of
them survives; the result of `BM_join_loop` has length `total_size`. -/
theorem join_view_writes_each_index_once (input : List (List Int))
    (h : input.flatten.length < SIZE_WIDTH) :
    total_size input = input.flatten.length ∧
    (∃ o, BM_join_view input = some o ∧
      o.buf.length = total_size input ∧
      o.pos = total_size input ∧
      o.written = List.range (total_size input) ∧
      (∀ i, o.written.count i = if i < total_size input then 1 else 0)) ∧
    (∀ init : List Int, init.length = total_size input →
      (ranges_copy_join input ⟨init, 0, []⟩).map OutIt.buf = some input.flatten) ∧
    (BM_join_loop input).length = total_size input := by
  have ht := total_size_eq input h
  refine ⟨ht, ?_, ?_, ?_⟩
  · refine ⟨⟨input.flatten, input.flatten.length, List.range input.flatten.length⟩, ?_, ?_, ?_,
      ?_, ?_⟩
    · unfold BM_join_view
      exact ranges_copy_join_full input _ (by simp [ht])
    · simp [ht]
    · simp [ht]
    · simp [ht]
    · intro i
      rw [ht]
      by_cases hi : i < input.flatten.length
      · simp only [hi, if_true]
        exact List.count_eq_one_of_mem (List.nodup_range _) (List.mem_range.mpr hi)
      · simp only [hi, if_false]
        exact List.count_eq_zero_of_not_mem (fun hm => hi (List.mem_range.mp hm))
  · intro init hinit
    rw [ranges_copy_join_full input init (by omega)]
    rfl
  · rw [BM_join_loop_eq, ht]

/-- C9 (witness): for `[[1,2],[],[3]]` the size is 3 and the copy stores to the
indices 0, 1, 2 in this order. -/
theorem join_view_writes_each_index_once_witness :
    total_size [[1, 2], [], [3]] = 3 ∧
    BM_join_view [[1, 2], [], [3]] = some ⟨[1, 2, 3], 3, [0, 1, 2]⟩ ∧
    (BM_join_loop [[1, 2], [], [3]]).length = 3 :=
  have h := join_view_writes_each_index_once [[1, 2], [], [3]] (by decide)
  ⟨h.1, by decide, by decide⟩

/-- C8: for every sequence `deq` (of fewer than `2 ^ 64` elements) and every
destination `vec` of the same length, the indexed loop of `BM_for_loop`, given
more fuel than `deq` has elements, and the `ranges::copy` of `BM_ranges` both
succeed without an out-of-range subscript or store and leave `vec` equal to
`deq`; the generic copy stores to the indices `0 .. deq.size() - 1` in order. -/
theorem copy_loop_ranges_agree (deq vec : List Int) (fuel : Nat)
    (hvec : vec.length = deq.length) (hsz : deq.length < SIZE_WIDTH)
    (hfuel : deq.length < fuel) :
    BM_for_loop fuel deq vec = some deq ∧
    BM_ranges deq vec = some ⟨deq, deq.length, List.range deq.length⟩ ∧
    (BM_ranges deq vec).map OutIt.buf = BM_for_loop fuel deq vec := by
  have hl : BM_for_loop fuel deq vec = some deq := by
    have := BM_for_loop_from_spec deq hsz deq [] vec fuel (by simp) hvec hfuel
    simpa [BM_for_loop] using this
  have hr : BM_ranges deq vec = some ⟨deq, deq.length, List.range deq.length⟩ := by
    have := ranges_copy_spec deq [] vec [] (by omega)
    simp only [List.nil_append, List.length_nil, Nat.zero_add] at this
    rw [BM_ranges, this, ← hvec, List.drop_length, List.append_nil, List.range_eq_range']
  refine ⟨hl, hr, ?_⟩
  rw [hl, hr]
  rfl

/-- C8 (witness): copying `[7, 8, 9]` over `[0, 0, 0]` with fuel 4. -/
theorem copy_loop_ranges_agree_witness :
    BM_for_loop 4 [7, 8, 9] [0, 0, 0] = some [7, 8, 9] ∧
    BM_ranges [7, 8, 9] [0, 0, 0] = some ⟨[7, 8, 9], 3, [0, 1, 2]⟩ :=
  have h := copy_loop_ranges_agree [7, 8, 9] [0, 0, 0] 4 (by decide) (by decide) (by decide)
  ⟨h.1, h.2.1⟩

/-! ## Claims on the generators and the fixtures -/

/-- C4 (code): at the requested size `2 ^ 32`, a valid `std::size_t`, the loop of
`create_data` never exits, because its 32-bit `unsigned` counter wraps to 0
before it can reach `size`: for every distribution, every seed and every amount
of fuel the function has not returned. -/
theorem create_data_diverges_at_uint_width {G : Type} (dist : G → Int × G) (seed : G)
    (fuel : Nat) :
    create_data dist fuel 4294967296 seed = none :=
  create_data_loop_diverges dist 4294967296 (by decide) fuel 0 seed [] (by decide)

/-- C5: for every `max_size` (a `std::size_t`), every engine state and
distributions that honour their ranges, `create_random_with_random_length`
returns, given more fuel than `max_size`, a sequence whose length is the drawn
size, hence at most `max_size`, and whose elements all lie between 0 and
1000. -/
theorem create_random_with_random_length_bounds {G : Type} (size_dist : Nat → G → Nat × G)
    (value_dist : G → Int × G) (hs : SizeDistContract size_dist)
    (hv : ValueDistContract value_dist) (max_size : Nat) (hmax : max_size < SIZE_WIDTH)
    (fuel : Nat) (hfuel : max_size < fuel) (gen : G) :
    ∃ result gen2,
      create_random_with_random_length size_dist value_dist fuel max_size gen =
        some (result, gen2) ∧
      result.length = (size_dist max_size gen).1 ∧ result.length ≤ max_size ∧
      ∀ x ∈ result, 0 ≤ x ∧ x ≤ 1000 :=
  create_random_with_random_length_spec size_dist value_dist hs hv max_size hmax fuel hfuel gen

/-- C5 (witness): the counter engine at state 3 with `max_size = 5` and fuel 6;
the drawn size is 3 and the result is `[4, 5, 6]`. -/
theorem create_random_with_random_length_bounds_witness :
    create_random_with_random_length counter_size_dist counter_value_dist 6 5 3 =
      some ([4, 5, 6], 7) ∧
    ∃ result gen2,
      create_random_with_random_length counter_size_dist counter_value_dist 6 5 3 =
        some (result, gen2) ∧
      result.length = (counter_size_dist 5 3).1 ∧ result.length ≤ 5 ∧
      ∀ x ∈ result, 0 ≤ x ∧ x ≤ 1000 :=
  ⟨by decide,
    create_random_with_random_length_bounds counter_size_dist counter_value_dist
      counter_size_dist_contract counter_value_dist_contract 5 (by decide) 6 (by decide) 3⟩

/-- C6: for every `n_outer = k` and `max_n_inner = m` (both `std::size_t`), every
engine state and distributions that honour their ranges, `create_nested(k, m)`
returns, given a budget above `k` and `m`, exactly `k` inner sequences, each of
length at most `m` with all elements between 0 and 1000; and with a budget
above 65536 the initialiser of `data` stores under 32, 8192 and 65536 three
fixtures of exactly 100 inner sequences bounded by 32, 8192 and 65536. -/
theorem create_nested_shape {G : Type} (size_dist : Nat → G → Nat × G)
    (value_dist : G → Int × G) (hs : SizeDistContract size_dist)
    (hv : ValueDistContract value_dist) (budget k m : Nat) (hk : k < SIZE_WIDTH)
    (hm : m < SIZE_WIDTH) (hbk : k < budget) (hbm : m < budget) (gen : G) :
    (∃ nested gen2,
      create_nested size_dist value_dist budget k m gen = some (nested, gen2) ∧
      nested.length = k ∧
      ∀ inner ∈ nested, inner.length ≤ m ∧ ∀ x ∈ inner, 0 ≤ x ∧ x ≤ 1000) ∧
    (65536 < budget →
      ∃ data_map gen3 n1 n2 n3,
        data size_dist value_dist budget gen = some (data_map, gen3) ∧
        map_at data_map 32 = some n1 ∧ IsNestedFixture 100 32 n1 ∧
        map_at data_map 8192 = some n2 ∧ IsNestedFixture 100 8192 n2 ∧
        map_at data_map 65536 = some n3 ∧ IsNestedFixture 100 65536 n3) := by
  refine ⟨create_nested_spec size_dist value_dist hs hv budget k m hk hm hbk hbm gen, ?_⟩
  intro hb
  obtain ⟨n1, gen1, h1, hn1⟩ :=
    create_nested_spec size_dist value_dist hs hv budget 100 32 (by decide) (by decide)
      (by omega) (by omega) gen
  obtain ⟨n2, gen2, h2, hn2⟩ :=
    create_nested_spec size_dist value_dist hs hv budget 100 8192 (by decide) (by decide)
      (by omega) (by omega) gen1
  obtain ⟨n3, gen3, h3, hn3⟩ :=
    create_nested_spec size_dist value_dist hs hv budget 100 65536 (by decide) (by decide)
      (by omega) (by omega) gen2
  refine ⟨map_assign (map_assign (map_assign (fun _ => none) 32 n1) 8192 n2) 65536 n3,
    gen3, n1, n2, n3, ?_, ?_, hn1, ?_, hn2, ?_, hn3⟩
  · simp only [data, h1, h2, h3]
  · simp [map_at, map_assign]
  · simp [map_at, map_assign]
  · simp [map_at, map_assign]

/-- C6 (witness): the counter engine from state 0 with `k = 2`, `m = 3` and a
budget of 65537. -/
theorem create_nested_shape_witness :
    (∃ nested gen2,
      create_nested counter_size_dist counter_value_dist 65537 2 3 0 = some (nested, gen2) ∧
      nested.length = 2 ∧
      ∀ inner ∈ nested, inner.length ≤ 3 ∧ ∀ x ∈ inner, 0 ≤ x ∧ x ≤ 1000) ∧
    ∃ data_map gen3 n1 n2 n3,
      data counter_size_dist counter_value_dist 65537 0 = some (data_map, gen3) ∧
      map_at data_map 32 = some n1 ∧ IsNestedFixture 100 32 n1 ∧
      map_at data_map 8192 = some n2 ∧ IsNestedFixture 100 8192 n2 ∧
      map_at data_map 65536 = some n3 ∧ IsNestedFixture 100 65536 n3 :=
  have h := create_nested_shape counter_size_dist counter_value_dist
    counter_size_dist_contract counter_value_dist_contract 65537 2 3 (by decide) (by decide)
    (by decide) (by decide) 0
  ⟨h.1, h.2 (by decide)⟩

/-- C7 (code): two requests for the dataset of size 32, one by `BM_for_loop` and
one by `BM_ranges`, both call `create_data` on a freshly seeded engine; with the
counter engine seeded 0 for the first and 1 for the second both return a
dataset and the two datasets differ, so the compared strategies do not see the
same input. -/
theorem BM_for_loop_BM_ranges_regenerate :
    (BM_for_loop_acquire counter_value_dist 33 32 0).isSome = true ∧
    (BM_ranges_acquire counter_value_dist 33 32 1).isSome = true ∧
    BM_for_loop_acquire counter_value_dist 33 32 0 ≠
      BM_ranges_acquire counter_value_dist 33 32 1 := by
  decide

end SegmentedBench
